import Mathlib

set_option maxHeartbeats 1000000
set_option maxRecDepth 100000

/-!
Shallow embedding of the `i2pkeys` key-format converter (go-i2p/i2pkeys-converter,
`src/main.go`, package `i2pkeys`): the custom Base64 codec built on Go's
`encoding/base64` with alphabet `A-Z a-z 0-9 - ~` and `=` padding, the format
predicates `isI2PBase64Format` and `IsCorrectFormat`, and the conversion engine
of `ConvertKeyFile` (its pure part; file I/O and directory creation are the
caller's concern and are out of scope).

Go strings and byte slices are modelled as `List Nat` of byte values.
Rune-oriented operations of the Go standard library (`strings.TrimSpace`,
`for _, r := range s`) decode UTF-8 explicitly, mirroring `unicode/utf8`.
-/

/-- Decode map of the I2P alphabet
`ABCDEFGHIJKLMNOPQRSTUVWXYZabcdefghijklmnopqrstuvwxyz0123456789-~`
(as built by `base64.NewEncoding`): symbol byte to 6-bit value, `none` for
bytes outside the alphabet (Go stores 0xFF for those). -/
def decodeMap (c : Nat) : Option Nat :=
  if 65 ≤ c ∧ c ≤ 90 then some (c - 65)
  else if 97 ≤ c ∧ c ≤ 122 then some (c - 97 + 26)
  else if 48 ≤ c ∧ c ≤ 57 then some (c - 48 + 52)
  else if c = 45 then some 62
  else if c = 126 then some 63
  else none

/-- Position `v` of the alphabet string
`ABCDEFGHIJKLMNOPQRSTUVWXYZabcdefghijklmnopqrstuvwxyz0123456789-~`
as a byte value (`enc.encode[v]` in Go's encoder). -/
def encodeChar (v : Nat) : Nat :=
  if v < 26 then 65 + v
  else if v < 52 then 97 + (v - 26)
  else if v < 62 then 48 + (v - 52)
  else if v = 62 then 45
  else 126

/-- Go `toI2PBase64` = `i2pB64Encoding.EncodeToString`: standard Base64
bit packing over the custom alphabet, `=` padding. Mirrors
`Encoding.Encode`: full 3-byte groups produce 4 symbols; a trailing 2
(resp. 1) byte group produces 3 symbols and `=` (resp. 2 symbols and `==`). -/
def toI2PBase64 : List Nat → List Nat
  | b0 :: b1 :: b2 :: rest =>
    let val := b0 * 65536 + b1 * 256 + b2
    encodeChar (val / 262144 % 64) :: encodeChar (val / 4096 % 64) ::
      encodeChar (val / 64 % 64) :: encodeChar (val % 64) :: toI2PBase64 rest
  | [b0, b1] =>
    let val := b0 * 65536 + b1 * 256
    [encodeChar (val / 262144 % 64), encodeChar (val / 4096 % 64),
      encodeChar (val / 64 % 64), 61]
  | [b0] =>
    let val := b0 * 65536
    [encodeChar (val / 262144 % 64), encodeChar (val / 4096 % 64), 61, 61]
  | [] => []

/-- In Go's `decodeQuantum`, after the first `=` of a `xx==` quantum:
skip CR/LF bytes, then require a second `=`, returning what follows it. -/
def skipToPad : List Nat → Option (List Nat)
  | [] => none
  | c :: rest =>
    if c = 10 ∨ c = 13 then skipToPad rest
    else if c = 61 then some rest
    else none

/-- In Go's `decodeQuantum`, after the final `=`: skip CR/LF; any other
remaining byte is trailing garbage (a `CorruptInputError`). -/
def noTrailing : List Nat → Bool
  | [] => true
  | c :: rest => if c = 10 ∨ c = 13 then noTrailing rest else false

/-- The 24-bit value of a (possibly short) quantum buffer, missing symbols
read as 0 (`val := dbuf[0]<<18 | dbuf[1]<<12 | dbuf[2]<<6 | dbuf[3]`). -/
def quantumVal (dbuf : List Nat) : Nat :=
  dbuf.getD 0 0 * 262144 + dbuf.getD 1 0 * 4096 + dbuf.getD 2 0 * 64 + dbuf.getD 3 0

/-- The `dlen - 1` output bytes of a quantum with `dlen` data symbols
(Go writes `byte(val>>16)`, `byte(val>>8)`, `byte(val)` per `dlen`). -/
def quantumBytes (dlen : Nat) (dbuf : List Nat) : List Nat :=
  List.take (dlen - 1)
    [quantumVal dbuf / 65536 % 256, quantumVal dbuf / 256 % 256, quantumVal dbuf % 256]

/-- Go `Encoding.decodeQuantum` for a padded encoding: collect up to 4 data
symbols into `dbuf`, skipping CR and LF; on `=` the quantum must be a valid
final `xxx=` or `xx==` group followed (modulo CR/LF) by end of input.
Returns the decoded bytes together with the unconsumed input. -/
def decodeQuantum : List Nat → List Nat → Option (List Nat × List Nat)
  | dbuf, [] => if dbuf.isEmpty then some ([], []) else none
  | dbuf, c :: rest =>
    match decodeMap c with
    | some v =>
      if dbuf.length = 3 then some (quantumBytes 4 (dbuf ++ [v]), rest)
      else decodeQuantum (dbuf ++ [v]) rest
    | none =>
      if c = 10 ∨ c = 13 then decodeQuantum dbuf rest
      else if c = 61 then
        match dbuf.length with
        | 0 => none
        | 1 => none
        | 2 =>
          match skipToPad rest with
          | some rest2 =>
            if noTrailing rest2 then some (quantumBytes 2 dbuf, []) else none
          | none => none
        | _ => if noTrailing rest then some (quantumBytes 3 dbuf, []) else none
      else none

/-- Go `Encoding.Decode` main loop: repeatedly decode quanta until the
input is exhausted. `fuel` bounds the number of quanta; any `fuel` at least
the input length computes the Go result, since each quantum consumes at
least one byte. -/
def decodeLoop : Nat → List Nat → Option (List Nat)
  | _, [] => some []
  | 0, _ :: _ => none
  | fuel + 1, c :: rest =>
    match decodeQuantum [] (c :: rest) with
    | some (bytes, rest2) =>
      match decodeLoop fuel rest2 with
      | some bs => some (bytes ++ bs)
      | none => none
    | none => none

/-- Go `fromI2PBase64` = `i2pB64Encoding.DecodeString`. -/
def fromI2PBase64 (s : List Nat) : Option (List Nat) :=
  decodeLoop s.length s

/-- The Unicode replacement character U+FFFD (`utf8.RuneError`). -/
def runeError : Nat := 65533

/-- Go `utf8.DecodeRune` on a byte sequence: the first rune and its byte
width; invalid or incomplete sequences give `(RuneError, 1)`
(`(RuneError, 0)` on empty input). -/
def decodeRuneSize : List Nat → Nat × Nat
  | [] => (runeError, 0)
  | b0 :: rest =>
    if b0 < 128 then (b0, 1)
    else if 194 ≤ b0 ∧ b0 ≤ 223 then
      match rest with
      | b1 :: _ =>
        if 128 ≤ b1 ∧ b1 ≤ 191 then ((b0 - 192) * 64 + (b1 - 128), 2)
        else (runeError, 1)
      | [] => (runeError, 1)
    else if 224 ≤ b0 ∧ b0 ≤ 239 then
      match rest with
      | b1 :: b2 :: _ =>
        if ((if b0 = 224 then 160 ≤ b1 ∧ b1 ≤ 191
             else if b0 = 237 then 128 ≤ b1 ∧ b1 ≤ 159
             else 128 ≤ b1 ∧ b1 ≤ 191) ∧ 128 ≤ b2 ∧ b2 ≤ 191) then
          ((b0 - 224) * 4096 + (b1 - 128) * 64 + (b2 - 128), 3)
        else (runeError, 1)
      | _ => (runeError, 1)
    else if 240 ≤ b0 ∧ b0 ≤ 244 then
      match rest with
      | b1 :: b2 :: b3 :: _ =>
        if ((if b0 = 240 then 144 ≤ b1 ∧ b1 ≤ 191
             else if b0 = 244 then 128 ≤ b1 ∧ b1 ≤ 143
             else 128 ≤ b1 ∧ b1 ≤ 191) ∧
            128 ≤ b2 ∧ b2 ≤ 191 ∧ 128 ≤ b3 ∧ b3 ≤ 191) then
          ((b0 - 240) * 262144 + (b1 - 128) * 4096 + (b2 - 128) * 64 + (b3 - 128), 4)
        else (runeError, 1)
      | _ => (runeError, 1)
    else (runeError, 1)

/-- Go `unicode.IsSpace`: `\t \n \v \f \r space`, U+0085, U+00A0, and the
White_Space code points above Latin-1. -/
def isSpaceRune (r : Nat) : Bool :=
  decide (r = 9 ∨ r = 10 ∨ r = 11 ∨ r = 12 ∨ r = 13 ∨ r = 32 ∨ r = 133 ∨ r = 160 ∨
    r = 5760 ∨ (8192 ≤ r ∧ r ≤ 8202) ∨ r = 8232 ∨ r = 8233 ∨ r = 8239 ∨ r = 8287 ∨
    r = 12288)

/-- Go `utf8.RuneStart`: a byte that does not have the form `10xxxxxx`. -/
def runeStart (b : Nat) : Bool := !decide (128 ≤ b ∧ b ≤ 191)

/-- Go `utf8.DecodeLastRune`: the last rune of a byte sequence. Scans back
at most 4 bytes for a rune-start byte; the decoded rune must end exactly at
the end of the sequence, otherwise `(RuneError, 1)`. -/
def decodeLastRune (s : List Nat) : Nat × Nat :=
  match s.getLast? with
  | none => (runeError, 0)
  | some last =>
    if last < 128 then (last, 1)
    else
      let n := s.length
      if 2 ≤ n ∧ runeStart (s.getD (n - 2) 0) then
        let p := decodeRuneSize (s.drop (n - 2))
        if n - 2 + p.2 = n then p else (runeError, 1)
      else if 3 ≤ n ∧ runeStart (s.getD (n - 3) 0) then
        let p := decodeRuneSize (s.drop (n - 3))
        if n - 3 + p.2 = n then p else (runeError, 1)
      else if 4 ≤ n ∧ runeStart (s.getD (n - 4) 0) then
        let p := decodeRuneSize (s.drop (n - 4))
        if n - 4 + p.2 = n then p else (runeError, 1)
      else (runeError, 1)

/-- Leading-whitespace trimming of `strings.TrimSpace` (equivalently
`strings.TrimLeftFunc(s, unicode.IsSpace)`): drop leading space runes.
Any `fuel` at least the length computes the Go result, since every dropped
rune is at least one byte. -/
def trimLeftSpace : Nat → List Nat → List Nat
  | _, [] => []
  | 0, s => s
  | fuel + 1, c :: rest =>
    if isSpaceRune (decodeRuneSize (c :: rest)).1 then
      trimLeftSpace fuel ((c :: rest).drop (decodeRuneSize (c :: rest)).2)
    else c :: rest

/-- Trailing-whitespace trimming of `strings.TrimSpace` (equivalently
`strings.TrimRightFunc(s, unicode.IsSpace)`): drop trailing space runes. -/
def trimRightSpace : Nat → List Nat → List Nat
  | _, [] => []
  | 0, s => s
  | fuel + 1, c :: rest =>
    if isSpaceRune (decodeLastRune (c :: rest)).1 then
      trimRightSpace fuel ((c :: rest).take ((c :: rest).length - (decodeLastRune (c :: rest)).2))
    else c :: rest

/-- Go `strings.TrimSpace`. -/
def trimSpace (s : List Nat) : List Nat :=
  trimRightSpace s.length (trimLeftSpace s.length s)

/-- The character test of `isI2PBase64Format`'s loop body:
`A-Z`, `a-z`, `0-9`, `-`, `~` or `=`. -/
def isI2PChar (r : Nat) : Bool :=
  decide ((65 ≤ r ∧ r ≤ 90) ∨ (97 ≤ r ∧ r ≤ 122) ∨ (48 ≤ r ∧ r ≤ 57) ∨
    r = 45 ∨ r = 126 ∨ r = 61)

/-- The `for _, r := range data` loop of `isI2PBase64Format`: every rune of
the UTF-8 decoding must pass `isI2PChar`. -/
def validRunes : Nat → List Nat → Bool
  | _, [] => true
  | 0, _ :: _ => false
  | fuel + 1, c :: rest =>
    isI2PChar (decodeRuneSize (c :: rest)).1 &&
      validRunes fuel ((c :: rest).drop (decodeRuneSize (c :: rest)).2)

/-- Go `isI2PBase64Format`: trim whitespace, require non-empty, every rune
in the I2P character set, and a successful decode. -/
def isI2PBase64Format (data : List Nat) : Bool :=
  let d := trimSpace data
  !d.isEmpty && validRunes d.length d && (fromI2PBase64 d).isSome

/-- Go `strings.Split(s, "\n")`. -/
def splitNL : List Nat → List (List Nat)
  | [] => [[]]
  | c :: rest =>
    match splitNL rest with
    | [] => [[c]]
    | l :: ls => if c = 10 then [] :: l :: ls else (c :: l) :: ls

/-- Go `IsCorrectFormat`: trim the whole content, split on newline, require
exactly two lines, both in I2P Base64 format. -/
def IsCorrectFormat (data : List Nat) : Bool :=
  let lines := splitNL (trimSpace data)
  decide (lines.length = 2) && isI2PBase64Format (lines.getD 0 []) &&
    isI2PBase64Format (lines.getD 1 [])

/-- The pure conversion engine of Go `ConvertKeyFile` (file reading and
writing stripped): pass already-canonical input through unchanged;
otherwise, if the whole text looks like I2P Base64, split the first line at
516 characters when long enough, else re-encode the raw bytes; a re-encoding
shorter than 516 characters is the `key data too short` error (`none`). -/
def ConvertKeyFile (data : List Nat) : Option (List Nat) :=
  if IsCorrectFormat data then some data
  else if isI2PBase64Format data then
    let completeKey := (splitNL data).getD 0 []
    if 516 ≤ completeKey.length then
      some (completeKey.take 516 ++ 10 :: completeKey)
    else
      let completeKey2 := toI2PBase64 data
      if 516 ≤ completeKey2.length then
        some (completeKey2.take 516 ++ 10 :: completeKey2)
      else none
  else
    let completeKey := toI2PBase64 data
    if 516 ≤ completeKey.length then
      some (completeKey.take 516 ++ 10 :: completeKey)
    else none

/-- Spec-side alphabet membership, written from the spec's character list
`A-Z a-z 0-9 - ~` (the 64 alphabet symbols, without the pad). -/
def isAlphaSym (c : Nat) : Bool :=
  decide ((65 ≤ c ∧ c ≤ 90) ∨ (97 ≤ c ∧ c ≤ 122) ∨ (48 ≤ c ∧ c ≤ 57) ∨
    c = 45 ∨ c = 126)

/-- Removal of the CR and LF bytes that Go's Base64 decoder skips. -/
def stripNL (s : List Nat) : List Nat :=
  s.filter (fun c => !(decide (c = 10) || decide (c = 13)))

/-- Alphabet membership as the decoder sees it. -/
def isAlphaB (c : Nat) : Bool := (decodeMap c).isSome

/-- Quantum grammar of a padded Base64 text: full quanta of alphabet
symbols, the last quantum possibly `xxx=` or `xx==`. -/
def grammarB64 : List Nat → Bool
  | [] => true
  | a :: b :: c :: d :: rest =>
    isAlphaB a && isAlphaB b &&
      (if rest.isEmpty then
        (isAlphaB c && (isAlphaB d || decide (d = 61))) ||
          (decide (c = 61) && decide (d = 61))
      else isAlphaB c && isAlphaB d && grammarB64 rest)
  | _ => false

/-- The decodability conditions in the words of the spec: every symbol is
in the alphabet or `=`; the length is a multiple of 4 (a valid padded
length); and all `=` signs form a run of at most two at the very end. -/
def b64Shape (s : List Nat) : Bool :=
  s.all (fun c => isAlphaSym c || decide (c = 61)) &&
    decide (s.length % 4 = 0) &&
    decide (s.count 61 ≤ 2) &&
    decide (s.drop (s.length - s.count 61) = List.replicate (s.count 61) 61)

/-- One segment of the canonical format, in the words of the spec: after
trimming, non-empty, only characters `A-Z a-z 0-9 - ~ =`, and decodable. -/
def specSegmentOK (seg : List Nat) : Bool :=
  let t := trimSpace seg
  !t.isEmpty && t.all (fun c => isAlphaSym c || decide (c = 61)) &&
    (fromI2PBase64 t).isSome

/-- The two-line validator in the words of the spec: trimming the whole
content and splitting on newline yields exactly two segments, each passing
`specSegmentOK`. -/
def specTwoLine (s : List Nat) : Bool :=
  match splitNL (trimSpace s) with
  | [l1, l2] => specSegmentOK l1 && specSegmentOK l2
  | _ => false

/-! ### Codec lemmas -/

theorem decodeMap_encodeChar : ∀ v, v < 64 → decodeMap (encodeChar v) = some v := by
  decide

theorem encodeChar_char : ∀ v, v < 64 → isI2PChar (encodeChar v) = true := by
  decide

theorem isI2PChar_facts (c : Nat) (h : isI2PChar c = true) :
    c < 128 ∧ c ≠ 10 ∧ c ≠ 13 ∧ isSpaceRune c = false := by
  simp only [isI2PChar, decide_eq_true_eq] at h
  simp only [isSpaceRune, decide_eq_false_iff_not, ne_eq]
  omega

theorem isI2PChar_61 : isI2PChar 61 = true := by decide

theorem encodeChar_mod (x : Nat) : isI2PChar (encodeChar (x % 64)) = true :=
  encodeChar_char _ (Nat.mod_lt _ (by omega))

theorem toI2PBase64_all : ∀ b : List Nat, (toI2PBase64 b).all isI2PChar = true
  | [] => rfl
  | [b0] => by simp [toI2PBase64, encodeChar_mod, isI2PChar_61]
  | [b0, b1] => by simp [toI2PBase64, encodeChar_mod, isI2PChar_61]
  | b0 :: b1 :: b2 :: rest => by
    simp [toI2PBase64, encodeChar_mod, isI2PChar_61, toI2PBase64_all rest]

theorem toI2PBase64_mem (b : List Nat) : ∀ c ∈ toI2PBase64 b, isI2PChar c = true := by
  intro c hc
  exact List.all_eq_true.mp (toI2PBase64_all b) c hc

theorem toI2PBase64_length : ∀ b : List Nat, (toI2PBase64 b).length = 4 * ((b.length + 2) / 3)
  | [] => by simp [toI2PBase64]
  | [b0] => by simp [toI2PBase64]
  | [b0, b1] => by simp [toI2PBase64]
  | b0 :: b1 :: b2 :: rest => by
    simp only [toI2PBase64, List.length_cons, toI2PBase64_length rest]
    omega

theorem toI2PBase64_append3 : ∀ (b1 : List Nat), b1.length % 3 = 0 → ∀ b2 : List Nat,
    toI2PBase64 (b1 ++ b2) = toI2PBase64 b1 ++ toI2PBase64 b2
  | [], _, b2 => by simp [toI2PBase64]
  | [x], h, b2 => by simp at h
  | [x, y], h, b2 => by simp at h
  | x :: y :: z :: rest, h, b2 => by
    have hr : rest.length % 3 = 0 := by simp only [List.length_cons] at h; omega
    simp only [List.cons_append, toI2PBase64, List.append_eq,
      toI2PBase64_append3 rest hr b2]

theorem decodeMap_61 : decodeMap 61 = none := by decide

theorem dq_quad (a b c d va vb vc vd : Nat) (r : List Nat)
    (ha : decodeMap a = some va) (hb : decodeMap b = some vb)
    (hc : decodeMap c = some vc) (hd : decodeMap d = some vd) :
    decodeQuantum [] (a :: b :: c :: d :: r) = some (quantumBytes 4 [va, vb, vc, vd], r) := by
  simp [decodeQuantum, ha, hb, hc, hd]

theorem dq_pad1 (a b c va vb vc : Nat)
    (ha : decodeMap a = some va) (hb : decodeMap b = some vb)
    (hc : decodeMap c = some vc) :
    decodeQuantum [] [a, b, c, 61] = some (quantumBytes 3 [va, vb, vc], []) := by
  simp [decodeQuantum, ha, hb, hc, decodeMap_61, noTrailing]

theorem dq_pad2 (a b va vb : Nat)
    (ha : decodeMap a = some va) (hb : decodeMap b = some vb) :
    decodeQuantum [] [a, b, 61, 61] = some (quantumBytes 2 [va, vb], []) := by
  simp [decodeQuantum, ha, hb, decodeMap_61, skipToPad, noTrailing]

theorem decode_encode : ∀ (fuel : Nat) (b : List Nat), (∀ x ∈ b, x < 256) →
    (toI2PBase64 b).length ≤ fuel → decodeLoop fuel (toI2PBase64 b) = some b := by
  intro fuel
  induction fuel with
  | zero =>
    intro b hb hl
    cases b with
    | nil => simp [toI2PBase64, decodeLoop]
    | cons x xs =>
      exfalso
      have h := toI2PBase64_length (x :: xs)
      simp only [List.length_cons] at h
      omega
  | succ f ih =>
    intro b hb hl
    rcases b with _ | ⟨b0, _ | ⟨b1, _ | ⟨b2, rest⟩⟩⟩
    · simp [toI2PBase64, decodeLoop]
    · have h0 : b0 * 65536 / 262144 % 64 < 64 := Nat.mod_lt _ (by omega)
      have h1 : b0 * 65536 / 4096 % 64 < 64 := Nat.mod_lt _ (by omega)
      have hb0 : b0 < 256 := hb b0 (by simp)
      simp only [toI2PBase64, decodeLoop,
        dq_pad2 _ _ _ _ (decodeMap_encodeChar _ h0) (decodeMap_encodeChar _ h1)]
      simp [quantumBytes, quantumVal]
      omega
    · have h0 : (b0 * 65536 + b1 * 256) / 262144 % 64 < 64 := Nat.mod_lt _ (by omega)
      have h1 : (b0 * 65536 + b1 * 256) / 4096 % 64 < 64 := Nat.mod_lt _ (by omega)
      have h2 : (b0 * 65536 + b1 * 256) / 64 % 64 < 64 := Nat.mod_lt _ (by omega)
      have hb0 : b0 < 256 := hb b0 (by simp)
      have hb1 : b1 < 256 := hb b1 (by simp)
      simp only [toI2PBase64, decodeLoop,
        dq_pad1 _ _ _ _ _ _ (decodeMap_encodeChar _ h0) (decodeMap_encodeChar _ h1)
          (decodeMap_encodeChar _ h2)]
      simp [quantumBytes, quantumVal]
      omega
    · have h0 : (b0 * 65536 + b1 * 256 + b2) / 262144 % 64 < 64 := Nat.mod_lt _ (by omega)
      have h1 : (b0 * 65536 + b1 * 256 + b2) / 4096 % 64 < 64 := Nat.mod_lt _ (by omega)
      have h2 : (b0 * 65536 + b1 * 256 + b2) / 64 % 64 < 64 := Nat.mod_lt _ (by omega)
      have h3 : (b0 * 65536 + b1 * 256 + b2) % 64 < 64 := Nat.mod_lt _ (by omega)
      have hb0 : b0 < 256 := hb b0 (by simp)
      have hb1 : b1 < 256 := hb b1 (by simp)
      have hb2 : b2 < 256 := hb b2 (by simp)
      have hlen : (toI2PBase64 rest).length ≤ f := by
        have ha := toI2PBase64_length (b0 :: b1 :: b2 :: rest)
        have hc := toI2PBase64_length rest
        simp only [List.length_cons] at ha
        omega
      have hrest : ∀ x ∈ rest, x < 256 := fun x hx => hb x (by simp [hx])
      simp only [toI2PBase64, decodeLoop,
        dq_quad _ _ _ _ _ _ _ _ _ (decodeMap_encodeChar _ h0) (decodeMap_encodeChar _ h1)
          (decodeMap_encodeChar _ h2) (decodeMap_encodeChar _ h3)]
      rw [ih rest hrest hlen]
      simp [quantumBytes, quantumVal]
      omega

theorem fromI2PBase64_toI2PBase64 (b : List Nat) (hb : ∀ x ∈ b, x < 256) :
    fromI2PBase64 (toI2PBase64 b) = some b :=
  decode_encode _ b hb le_rfl

/-! ### Decoder step lemmas -/

theorem dqE0 : decodeQuantum [] [] = some ([], []) := rfl

theorem dqE1 (v : Nat) : decodeQuantum [v] [] = none := rfl

theorem dqE2 (v w : Nat) : decodeQuantum [v, w] [] = none := rfl

theorem dqE3 (v w u : Nat) : decodeQuantum [v, w, u] [] = none := rfl

theorem dqA (a va : Nat) (l : List Nat) (h : decodeMap a = some va) :
    decodeQuantum [] (a :: l) = decodeQuantum [va] l := by
  simp [decodeQuantum, h]

theorem dqB (b va vb : Nat) (l : List Nat) (h : decodeMap b = some vb) :
    decodeQuantum [va] (b :: l) = decodeQuantum [va, vb] l := by
  simp [decodeQuantum, h]

theorem dqC (c va vb vc : Nat) (l : List Nat) (h : decodeMap c = some vc) :
    decodeQuantum [va, vb] (c :: l) = decodeQuantum [va, vb, vc] l := by
  simp [decodeQuantum, h]

theorem dqD (d va vb vc vd : Nat) (l : List Nat) (h : decodeMap d = some vd) :
    decodeQuantum [va, vb, vc] (d :: l) = some (quantumBytes 4 [va, vb, vc, vd], l) := by
  simp [decodeQuantum, h]

theorem dqN0 (a : Nat) (l : List Nat) (h : decodeMap a = none)
    (h10 : a ≠ 10) (h13 : a ≠ 13) : decodeQuantum [] (a :: l) = none := by
  simp [decodeQuantum, h, h10, h13]

theorem dqN1 (b va : Nat) (l : List Nat) (h : decodeMap b = none)
    (h10 : b ≠ 10) (h13 : b ≠ 13) : decodeQuantum [va] (b :: l) = none := by
  simp [decodeQuantum, h, h10, h13]

theorem dqN2 (c va vb : Nat) (l : List Nat) (h : decodeMap c = none)
    (h10 : c ≠ 10) (h13 : c ≠ 13) (h61 : c ≠ 61) :
    decodeQuantum [va, vb] (c :: l) = none := by
  simp [decodeQuantum, h, h10, h13, h61]

theorem dqN3 (d va vb vc : Nat) (l : List Nat) (h : decodeMap d = none)
    (h10 : d ≠ 10) (h13 : d ≠ 13) (h61 : d ≠ 61) :
    decodeQuantum [va, vb, vc] (d :: l) = none := by
  simp [decodeQuantum, h, h10, h13, h61]

theorem dqP2 (va vb : Nat) (l : List Nat) :
    decodeQuantum [va, vb] (61 :: l) =
      match skipToPad l with
      | some rest2 =>
        if noTrailing rest2 then some (quantumBytes 2 [va, vb], []) else none
      | none => none := by
  simp [decodeQuantum, decodeMap_61]

theorem dqP3 (va vb vc : Nat) (l : List Nat) :
    decodeQuantum [va, vb, vc] (61 :: l) =
      if noTrailing l then some (quantumBytes 3 [va, vb, vc], []) else none := by
  simp [decodeQuantum, decodeMap_61]

theorem decodeMap_some_facts (c v : Nat) (h : decodeMap c = some v) :
    c ≠ 10 ∧ c ≠ 13 ∧ c ≠ 61 ∧ v < 64 := by
  simp only [decodeMap] at h
  split_ifs at h with h1 h2 h3 h4 h5 <;> simp only [Option.some.injEq] at h <;> omega

theorem dq_rest_le : ∀ (src dbuf bs r : List Nat),
    decodeQuantum dbuf src = some (bs, r) → r.length ≤ src.length := by
  intro src
  induction src with
  | nil =>
    intro dbuf bs r h
    simp only [decodeQuantum] at h
    split at h
    · simp only [Option.some.injEq, Prod.mk.injEq] at h
      simp [← h.2]
    · exact absurd h (by simp)
  | cons c rest ih =>
    intro dbuf bs r h
    rcases hm : decodeMap c with _ | v
    · simp only [decodeQuantum, hm] at h
      split at h
      · exact Nat.le_succ_of_le (ih dbuf bs r h)
      · split at h
        · split at h
          · exact absurd h (by simp)
          · exact absurd h (by simp)
          · rcases hs : skipToPad rest with _ | r2 <;> rw [hs] at h
            · exact absurd h (by simp)
            · dsimp only at h
              split at h
              · simp only [Option.some.injEq, Prod.mk.injEq] at h
                simp [← h.2]
              · exact absurd h (by simp)
          · split at h
            · simp only [Option.some.injEq, Prod.mk.injEq] at h
              simp [← h.2]
            · exact absurd h (by simp)
        · exact absurd h (by simp)
    · simp only [decodeQuantum, hm] at h
      split at h
      · simp only [Option.some.injEq, Prod.mk.injEq] at h
        simp [← h.2]
      · exact Nat.le_succ_of_le (ih (dbuf ++ [v]) bs r h)

theorem dq_rest_cons (c : Nat) (rest dbuf bs r : List Nat)
    (h : decodeQuantum dbuf (c :: rest) = some (bs, r)) : r.length ≤ rest.length := by
  rcases hm : decodeMap c with _ | v
  · simp only [decodeQuantum, hm] at h
    split at h
    · exact dq_rest_le rest dbuf bs r h
    · split at h
      · split at h
        · exact absurd h (by simp)
        · exact absurd h (by simp)
        · rcases hs : skipToPad rest with _ | r2 <;> rw [hs] at h
          · exact absurd h (by simp)
          · dsimp only at h
            split at h
            · simp only [Option.some.injEq, Prod.mk.injEq] at h
              simp [← h.2]
            · exact absurd h (by simp)
        · split at h
          · simp only [Option.some.injEq, Prod.mk.injEq] at h
            simp [← h.2]
          · exact absurd h (by simp)
      · exact absurd h (by simp)
  · simp only [decodeQuantum, hm] at h
    split at h
    · simp only [Option.some.injEq, Prod.mk.injEq] at h
      simp [← h.2]
    · exact dq_rest_le rest (dbuf ++ [v]) bs r h

theorem decodeLoop_fuel : ∀ (f1 : Nat) (src : List Nat) (f2 : Nat), src.length ≤ f1 →
    src.length ≤ f2 → decodeLoop f1 src = decodeLoop f2 src := by
  intro f1
  induction f1 with
  | zero =>
    intro src f2 h1 h2
    rcases src with _ | ⟨c, rest⟩
    · cases f2 <;> rfl
    · simp at h1
  | succ g ih =>
    intro src f2 h1 h2
    rcases src with _ | ⟨c, rest⟩
    · cases f2 <;> rfl
    · rcases f2 with _ | g2
      · simp at h2
      · simp only [decodeLoop]
        rcases hq : decodeQuantum [] (c :: rest) with _ | ⟨bs, r2⟩
        · rfl
        · have hr := dq_rest_cons c rest [] bs r2 hq
          simp only [List.length_cons] at h1 h2
          dsimp only
          rw [ih r2 g2 (by omega) (by omega)]

/-! ### CR/LF stripping -/

theorem stripNL_nil : stripNL [] = [] := rfl

theorem stripNL_cons_of_nl (c : Nat) (rest : List Nat) (h : c = 10 ∨ c = 13) :
    stripNL (c :: rest) = stripNL rest := by
  rcases h with h | h <;> subst h <;> simp [stripNL]

theorem stripNL_cons_ne (c : Nat) (rest : List Nat) (h10 : c ≠ 10) (h13 : c ≠ 13) :
    stripNL (c :: rest) = c :: stripNL rest := by
  simp [stripNL, h10, h13]

theorem stripNL_noNL (s : List Nat) : ∀ x ∈ stripNL s, x ≠ 10 ∧ x ≠ 13 := by
  intro x hx
  simp only [stripNL, List.mem_filter, Bool.not_eq_true', Bool.or_eq_false_iff,
    decide_eq_false_iff_not] at hx
  exact hx.2

theorem skipToPad_strip : ∀ r : List Nat, skipToPad (stripNL r) = (skipToPad r).map stripNL
  | [] => rfl
  | c :: rest => by
    by_cases hnl : c = 10 ∨ c = 13
    · rw [stripNL_cons_of_nl c rest hnl]
      have h2 : skipToPad (c :: rest) = skipToPad rest := by
        simp only [skipToPad, if_pos hnl]
      rw [h2, skipToPad_strip rest]
    · push_neg at hnl
      rw [stripNL_cons_ne c rest hnl.1 hnl.2]
      by_cases h61 : c = 61
      · subst h61
        simp [skipToPad]
      · simp [skipToPad, hnl.1, hnl.2, h61]

theorem noTrailing_strip : ∀ r : List Nat, noTrailing (stripNL r) = noTrailing r
  | [] => rfl
  | c :: rest => by
    by_cases hnl : c = 10 ∨ c = 13
    · rw [stripNL_cons_of_nl c rest hnl]
      have h2 : noTrailing (c :: rest) = noTrailing rest := by
        simp only [noTrailing, if_pos hnl]
      rw [h2, noTrailing_strip rest]
    · push_neg at hnl
      rw [stripNL_cons_ne c rest hnl.1 hnl.2]
      simp [noTrailing, hnl.1, hnl.2]

theorem dq_strip : ∀ (src dbuf : List Nat),
    decodeQuantum dbuf (stripNL src) =
      (decodeQuantum dbuf src).map (fun p => (p.1, stripNL p.2)) := by
  intro src
  induction src with
  | nil =>
    intro dbuf
    rw [stripNL_nil]
    cases dbuf with
    | nil => rfl
    | cons x xs => rfl
  | cons c rest ih =>
    intro dbuf
    rcases hm : decodeMap c with _ | v
    · by_cases hnl : c = 10 ∨ c = 13
      · rw [stripNL_cons_of_nl c rest hnl]
        have h2 : decodeQuantum dbuf (c :: rest) = decodeQuantum dbuf rest := by
          simp only [decodeQuantum, hm, if_pos hnl]
        rw [h2, ih dbuf]
      · push_neg at hnl
        rw [stripNL_cons_ne c rest hnl.1 hnl.2]
        by_cases h61 : c = 61
        · subst h61
          rcases hd : dbuf.length with _ | _ | _ | k
          · simp [decodeQuantum, hm, hd]
          · simp [decodeQuantum, hm, hd]
          · simp only [decodeQuantum, hm, hd]
            rw [skipToPad_strip rest]
            rcases hs : skipToPad rest with _ | r2
            · simp
            · rcases hnt : noTrailing r2 with _ | _ <;>
                simp [noTrailing_strip, hnt, stripNL_nil]
          · simp only [decodeQuantum, hm, hd]
            rcases hnt : noTrailing rest with _ | _ <;>
              simp [noTrailing_strip, hnt, stripNL_nil]
        · have e1 : decodeQuantum dbuf (c :: stripNL rest) = none := by
            simp [decodeQuantum, hm, hnl.1, hnl.2, h61]
          have e2 : decodeQuantum dbuf (c :: rest) = none := by
            simp [decodeQuantum, hm, hnl.1, hnl.2, h61]
          rw [e1, e2]
          rfl
    · have hf := decodeMap_some_facts c v hm
      rw [stripNL_cons_ne c rest hf.1 hf.2.1]
      by_cases hl : dbuf.length = 3
      · simp only [decodeQuantum, hm, if_pos hl]
        simp
      · simp only [decodeQuantum, hm, if_neg hl]
        rw [ih (dbuf ++ [v])]

theorem decodeLoop_strip : ∀ (f : Nat) (src : List Nat), src.length ≤ f →
    decodeLoop f src = decodeLoop (stripNL src).length (stripNL src) := by
  intro f
  induction f with
  | zero =>
    intro src h
    rcases src with _ | ⟨c, rest⟩
    · rfl
    · simp at h
  | succ g ih =>
    intro src h
    rcases src with _ | ⟨c, rest⟩
    · rfl
    · have hD := dq_strip (c :: rest) []
      rcases hq : decodeQuantum [] (c :: rest) with _ | ⟨bs, r2⟩
      · rw [hq] at hD
        simp only [Option.map] at hD
        simp only [decodeLoop, hq]
        rcases hst : stripNL (c :: rest) with _ | ⟨d, ds⟩
        · rw [hst] at hD
          exact absurd hD (by simp [decodeQuantum])
        · rw [hst] at hD
          simp only [List.length_cons, decodeLoop, hD]
      · rw [hq] at hD
        simp only [Option.map] at hD
        have hr2 : r2.length ≤ rest.length := dq_rest_cons c rest [] bs r2 hq
        simp only [List.length_cons] at h
        have hih := ih r2 (by omega)
        rcases hst : stripNL (c :: rest) with _ | ⟨d, ds⟩
        · rw [hst] at hD
          have h0 : decodeQuantum [] ([] : List Nat) = some ([], []) := rfl
          rw [h0] at hD
          simp only [Option.some.injEq, Prod.mk.injEq] at hD
          simp only [decodeLoop, hq, hih, ← hD.2, stripNL_nil, List.length_nil]
          simp [← hD.1]
        · rw [hst] at hD
          have hr2s : (stripNL r2).length ≤ ds.length :=
            dq_rest_cons d ds [] bs (stripNL r2) hD
          simp only [decodeLoop, hq, List.length_cons, hD]
          rw [hih, decodeLoop_fuel (stripNL r2).length (stripNL r2) ds.length le_rfl hr2s]

theorem grammarB64_one (a : Nat) : grammarB64 [a] = false := rfl

theorem grammarB64_two (a b : Nat) : grammarB64 [a, b] = false := rfl

theorem grammarB64_three (a b c : Nat) : grammarB64 [a, b, c] = false := rfl

theorem decodeLoop_grammar : ∀ (f : Nat) (src : List Nat),
    (∀ x ∈ src, x ≠ 10 ∧ x ≠ 13) → src.length ≤ f →
    (decodeLoop f src).isSome = grammarB64 src := by
  intro f
  induction f with
  | zero =>
    intro src hnl hl
    rcases src with _ | ⟨a, l⟩
    · rfl
    · simp at hl
  | succ g ih =>
    intro src hnl hl
    rcases src with _ | ⟨a, _ | ⟨b, _ | ⟨c, _ | ⟨d, rest⟩⟩⟩⟩
    · rfl
    · have ha := hnl a (by simp)
      rcases hma : decodeMap a with _ | va
      · simp [decodeLoop, dqN0 a [] hma ha.1 ha.2, grammarB64_one]
      · simp [decodeLoop, dqA a va [] hma, dqE1, grammarB64_one]
    · have ha := hnl a (by simp)
      have hb := hnl b (by simp)
      rcases hma : decodeMap a with _ | va
      · simp [decodeLoop, dqN0 a [b] hma ha.1 ha.2, grammarB64_two]
      · rcases hmb : decodeMap b with _ | vb
        · simp [decodeLoop, dqA a va [b] hma, dqN1 b va [] hmb hb.1 hb.2, grammarB64_two]
        · simp [decodeLoop, dqA a va [b] hma, dqB b va vb [] hmb, dqE2, grammarB64_two]
    · have ha := hnl a (by simp)
      have hb := hnl b (by simp)
      have hc := hnl c (by simp)
      rcases hma : decodeMap a with _ | va
      · simp [decodeLoop, dqN0 a [b, c] hma ha.1 ha.2, grammarB64_three]
      · rcases hmb : decodeMap b with _ | vb
        · simp [decodeLoop, dqA a va [b, c] hma, dqN1 b va [c] hmb hb.1 hb.2,
            grammarB64_three]
        · rcases hmc : decodeMap c with _ | vc
          · by_cases hc61 : c = 61
            · subst hc61
              simp [decodeLoop, dqA a va [b, 61] hma, dqB b va vb [61] hmb, dqP2,
                skipToPad, grammarB64_three]
            · simp [decodeLoop, dqA a va [b, c] hma, dqB b va vb [c] hmb,
                dqN2 c va vb [] hmc hc.1 hc.2 hc61, grammarB64_three]
          · simp [decodeLoop, dqA a va [b, c] hma, dqB b va vb [c] hmb,
              dqC c va vb vc [] hmc, dqE3, grammarB64_three]
    · have ha := hnl a (by simp)
      have hb := hnl b (by simp)
      have hc := hnl c (by simp)
      have hd := hnl d (by simp)
      have hrest : ∀ x ∈ rest, x ≠ 10 ∧ x ≠ 13 := fun x hx => hnl x (by simp [hx])
      simp only [List.length_cons] at hl
      rcases hma : decodeMap a with _ | va
      · simp [decodeLoop, dqN0 a (b :: c :: d :: rest) hma ha.1 ha.2, grammarB64,
          isAlphaB, hma]
      · rcases hmb : decodeMap b with _ | vb
        · simp [decodeLoop, dqA a va (b :: c :: d :: rest) hma,
            dqN1 b va (c :: d :: rest) hmb hb.1 hb.2, grammarB64, isAlphaB, hma, hmb]
        · rcases hmc : decodeMap c with _ | vc
          · by_cases hc61 : c = 61
            · subst hc61
              by_cases hd61 : d = 61
              · subst hd61
                rcases rest with _ | ⟨r0, rtail⟩
                · simp [decodeLoop, dqA a va (b :: 61 :: 61 :: []) hma,
                    dqB b va vb (61 :: 61 :: []) hmb, dqP2, skipToPad, noTrailing,
                    grammarB64, isAlphaB, hma, hmb, decodeMap_61]
                · have hr0 := hrest r0 (by simp)
                  simp [decodeLoop, dqA a va (b :: 61 :: 61 :: r0 :: rtail) hma,
                    dqB b va vb (61 :: 61 :: r0 :: rtail) hmb, dqP2, skipToPad, noTrailing,
                    hr0.1, hr0.2, grammarB64, isAlphaB, hma, hmb, decodeMap_61]
              · simp [decodeLoop, dqA a va (b :: 61 :: d :: rest) hma,
                  dqB b va vb (61 :: d :: rest) hmb, dqP2, skipToPad, hd.1, hd.2, hd61,
                  grammarB64, isAlphaB, hma, hmb, decodeMap_61]
            · simp [decodeLoop, dqA a va (b :: c :: d :: rest) hma,
                dqB b va vb (c :: d :: rest) hmb,
                dqN2 c va vb (d :: rest) hmc hc.1 hc.2 hc61, grammarB64, isAlphaB,
                hma, hmb, hmc, hc61]
          · rcases hmd : decodeMap d with _ | vd
            · by_cases hd61 : d = 61
              · subst hd61
                rcases rest with _ | ⟨r0, rtail⟩
                · simp [decodeLoop, dqA a va (b :: c :: 61 :: []) hma,
                    dqB b va vb (c :: 61 :: []) hmb, dqC c va vb vc (61 :: []) hmc, dqP3,
                    noTrailing, grammarB64, isAlphaB, hma, hmb, hmc, decodeMap_61]
                · have hr0 := hrest r0 (by simp)
                  simp [decodeLoop, dqA a va (b :: c :: 61 :: r0 :: rtail) hma,
                    dqB b va vb (c :: 61 :: r0 :: rtail) hmb,
                    dqC c va vb vc (61 :: r0 :: rtail) hmc, dqP3, noTrailing, hr0.1, hr0.2,
                    grammarB64, isAlphaB, hma, hmb, hmc, decodeMap_61]
              · simp [decodeLoop, dqA a va (b :: c :: d :: rest) hma,
                  dqB b va vb (c :: d :: rest) hmb, dqC c va vb vc (d :: rest) hmc,
                  dqN3 d va vb vc rest hmd hd.1 hd.2 hd61, grammarB64, isAlphaB,
                  hma, hmb, hmc, hmd, hd61]
            · have hihr := ih rest hrest (by omega)
              rcases rest with _ | ⟨r0, rtail⟩
              · simp [decodeLoop, dqA a va (b :: c :: d :: []) hma,
                  dqB b va vb (c :: d :: []) hmb, dqC c va vb vc (d :: []) hmc,
                  dqD d va vb vc vd [] hmd, grammarB64, isAlphaB, hma, hmb, hmc, hmd]
              · simp only [decodeLoop, dqA a va (b :: c :: d :: r0 :: rtail) hma,
                  dqB b va vb (c :: d :: r0 :: rtail) hmb,
                  dqC c va vb vc (d :: r0 :: rtail) hmc, dqD d va vb vc vd (r0 :: rtail) hmd]
                rcases hdl : decodeLoop g (r0 :: rtail) with _ | bs <;> rw [hdl] at hihr <;>
                  simp [grammarB64, isAlphaB, hma, hmb, hmc, hmd, ← hihr]

/-! ### Grammar versus the spec-worded shape -/

theorem isAlphaB_eq (c : Nat) : isAlphaB c = isAlphaSym c := by
  simp only [isAlphaB, decodeMap, isAlphaSym]
  split_ifs with h1 h2 h3 h4 h5 <;>
    simp only [Option.isSome_some, Option.isSome_none] <;>
    rw [eq_comm] <;>
    simp only [decide_eq_true_eq, decide_eq_false_iff_not] <;> omega

theorem isAlphaSym_ne61 (c : Nat) (h : isAlphaSym c = true) : c ≠ 61 := by
  simp only [isAlphaSym, decide_eq_true_eq] at h
  omega

theorem isAlphaB_ne61 (c : Nat) (h : isAlphaB c = true) : c ≠ 61 :=
  isAlphaSym_ne61 c (isAlphaB_eq c ▸ h)

theorem acc61 (c : Nat) (h : isAlphaB c = true) :
    (isAlphaSym c || decide (c = 61)) = true := by
  rw [isAlphaB_eq] at h
  simp [h]

theorem acc_imp (x : Nat) (h : (isAlphaSym x || decide (x = 61)) = true) (hne : x ≠ 61) :
    isAlphaB x = true := by
  rw [isAlphaB_eq]
  simp only [Bool.or_eq_true, decide_eq_true_eq] at h
  rcases h with h | h
  · exact h
  · exact absurd h hne

theorem no61_take (s : List Nat)
    (hdrop : s.drop (s.length - s.count 61) = List.replicate (s.count 61) 61) :
    ∀ x ∈ s.take (s.length - s.count 61), x ≠ 61 := by
  intro x hx hx61
  subst hx61
  have hc : s.count 61 =
      (s.take (s.length - s.count 61)).count 61 +
        (s.drop (s.length - s.count 61)).count 61 := by
    conv_lhs => rw [← List.take_append_drop (s.length - s.count 61) s]
    rw [List.count_append]
  rw [hdrop, List.count_replicate_self] at hc
  have h0 : (s.take (s.length - s.count 61)).count 61 = 0 := by omega
  rw [List.count_eq_zero] at h0
  exact h0 hx

theorem drop_four (a b c d : Nat) (l : List Nat) (k : Nat) :
    (a :: b :: c :: d :: l).drop (k + 4) = l.drop k := rfl

theorem take_four (a b c d : Nat) (l : List Nat) (k : Nat) :
    (a :: b :: c :: d :: l).take (k + 4) = a :: b :: c :: d :: l.take k := rfl

theorem grammar_to_shape : ∀ s : List Nat, grammarB64 s = true → b64Shape s = true
  | [] => fun _ => by decide
  | [a] => fun h => by simp [grammarB64_one] at h
  | [a, b] => fun h => by simp [grammarB64_two] at h
  | [a, b, c] => fun h => by simp [grammarB64_three] at h
  | a :: b :: c :: d :: rest => fun h => by
    rcases rest with _ | ⟨r0, rtail⟩
    · simp only [grammarB64, List.isEmpty_nil, if_true, Bool.and_eq_true,
        Bool.or_eq_true] at h
      obtain ⟨⟨hA, hB⟩, hTail⟩ := h
      have hA61 := isAlphaB_ne61 a hA
      have hB61 := isAlphaB_ne61 b hB
      rcases hTail with ⟨hC, hD⟩ | ⟨hC61, hD61⟩
      · have hC61 := isAlphaB_ne61 c hC
        rcases hD with hD | hD61
        · have hD61 := isAlphaB_ne61 d hD
          simp [b64Shape, List.count_cons, hA61, hB61, hC61, hD61,
            ← isAlphaB_eq, hA, hB, hC, hD]
        · have hd : d = 61 := by simpa using hD61
          subst hd
          simp [b64Shape, List.count_cons, hA61, hB61, hC61,
            ← isAlphaB_eq, hA, hB, hC]
      · have hc : c = 61 := by simpa using hC61
        have hd : d = 61 := by simpa using hD61
        subst hc
        subst hd
        simp [b64Shape, List.count_cons, hA61, hB61, ← isAlphaB_eq, hA, hB]
    · simp only [grammarB64, List.isEmpty_cons, Bool.false_eq_true, if_false,
        Bool.and_eq_true] at h
      obtain ⟨⟨hA, hB⟩, ⟨hC, hD⟩, hG⟩ := h
      have hA61 := isAlphaB_ne61 a hA
      have hB61 := isAlphaB_ne61 b hB
      have hC61 := isAlphaB_ne61 c hC
      have hD61 := isAlphaB_ne61 d hD
      have hSh := grammar_to_shape (r0 :: rtail) hG
      simp only [b64Shape, Bool.and_eq_true, decide_eq_true_eq] at hSh ⊢
      obtain ⟨⟨⟨hall, hlen⟩, hcnt⟩, hdrop⟩ := hSh
      have hclen : (r0 :: rtail).count 61 ≤ (r0 :: rtail).length :=
        List.count_le_length _ _
      have hlge : 4 ≤ (r0 :: rtail).length := by
        have hpos : 1 ≤ (r0 :: rtail).length := by simp
        omega
      have hcq : (a :: b :: c :: d :: r0 :: rtail).count 61 = (r0 :: rtail).count 61 := by
        simp [List.count_cons, hA61, hB61, hC61, hD61]
      refine ⟨⟨⟨?_, ?_⟩, ?_⟩, ?_⟩
      · simp only [List.all_cons, Bool.and_eq_true]
        exact ⟨acc61 a hA, acc61 b hB, acc61 c hC, acc61 d hD, by simpa using hall⟩
      · simp only [List.length_cons] at hlen ⊢
        omega
      · rw [hcq]
        exact hcnt
      · have hlq : (a :: b :: c :: d :: r0 :: rtail).length = (r0 :: rtail).length + 4 := by
          simp
        rw [hcq, hlq]
        have harith : (r0 :: rtail).length + 4 - (r0 :: rtail).count 61 =
            ((r0 :: rtail).length - (r0 :: rtail).count 61) + 4 := by omega
        rw [harith, drop_four]
        exact hdrop

theorem shape_to_grammar : ∀ s : List Nat, b64Shape s = true → grammarB64 s = true
  | [] => fun _ => rfl
  | [a] => fun h => by simp [b64Shape] at h
  | [a, b] => fun h => by simp [b64Shape] at h
  | [a, b, c] => fun h => by simp [b64Shape] at h
  | a :: b :: c :: d :: rest => fun h => by
    simp only [b64Shape, Bool.and_eq_true, decide_eq_true_eq] at h
    obtain ⟨⟨⟨hall, hlen⟩, hcnt⟩, hdrop⟩ := h
    have hacc : ∀ x ∈ a :: b :: c :: d :: rest,
        (isAlphaSym x || decide (x = 61)) = true := List.all_eq_true.mp hall
    have hno := no61_take _ hdrop
    rcases rest with _ | ⟨r0, rtail⟩
    · rcases hp : ([a, b, c, d] : List Nat).count 61 with _ | _ | _ | m
      · have h0 : 61 ∉ ([a, b, c, d] : List Nat) := List.count_eq_zero.mp hp
        have hA61 : a ≠ 61 := fun he => h0 (by simp [he])
        have hB61 : b ≠ 61 := fun he => h0 (by simp [he])
        have hC61 : c ≠ 61 := fun he => h0 (by simp [he])
        have hD61 : d ≠ 61 := fun he => h0 (by simp [he])
        simp [grammarB64, acc_imp a (hacc a (by simp)) hA61,
          acc_imp b (hacc b (by simp)) hB61, acc_imp c (hacc c (by simp)) hC61,
          acc_imp d (hacc d (by simp)) hD61]
      · have hp1 : ([a, b, c, d] : List Nat).count 61 = 1 := by omega
        have hidx : ([a, b, c, d] : List Nat).length -
            ([a, b, c, d] : List Nat).count 61 = 3 := by
          simp [hp1]
        rw [hidx] at hdrop hno
        rw [hp1] at hdrop
        have ed : ([a, b, c, d] : List Nat).drop 3 = [d] := rfl
        have er : List.replicate 1 61 = [61] := rfl
        rw [ed, er] at hdrop
        have hd : d = 61 := by simpa using hdrop
        have htake : ([a, b, c, d] : List Nat).take 3 = [a, b, c] := rfl
        rw [htake] at hno
        have hA61 : a ≠ 61 := hno a (by simp)
        have hB61 : b ≠ 61 := hno b (by simp)
        have hC61 : c ≠ 61 := hno c (by simp)
        subst hd
        simp [grammarB64, acc_imp a (hacc a (by simp)) hA61,
          acc_imp b (hacc b (by simp)) hB61, acc_imp c (hacc c (by simp)) hC61]
      · have hp2 : ([a, b, c, d] : List Nat).count 61 = 2 := by omega
        have hidx : ([a, b, c, d] : List Nat).length -
            ([a, b, c, d] : List Nat).count 61 = 2 := by
          simp [hp2]
        rw [hidx] at hdrop hno
        rw [hp2] at hdrop
        have ed : ([a, b, c, d] : List Nat).drop 2 = [c, d] := rfl
        have er : List.replicate 2 61 = [61, 61] := rfl
        rw [ed, er] at hdrop
        have hcd : c = 61 ∧ d = 61 := by simpa using hdrop
        have htake : ([a, b, c, d] : List Nat).take 2 = [a, b] := rfl
        rw [htake] at hno
        have hA61 : a ≠ 61 := hno a (by simp)
        have hB61 : b ≠ 61 := hno b (by simp)
        obtain ⟨hc61, hd61⟩ := hcd
        subst hc61
        subst hd61
        simp [grammarB64, acc_imp a (hacc a (by simp)) hA61,
          acc_imp b (hacc b (by simp)) hB61]
      · rw [hp] at hcnt
        omega
    · obtain ⟨k, hk⟩ : ∃ k, (a :: b :: c :: d :: r0 :: rtail).length -
          (a :: b :: c :: d :: r0 :: rtail).count 61 = k + 4 := by
        refine ⟨(a :: b :: c :: d :: r0 :: rtail).length -
          (a :: b :: c :: d :: r0 :: rtail).count 61 - 4, ?_⟩
        simp only [List.length_cons] at hlen ⊢
        omega
      have hmem : ∀ x ∈ ([a, b, c, d] : List Nat), x ≠ 61 := by
        intro x hx
        apply hno x
        rw [hk, take_four]
        simp only [List.mem_cons, List.not_mem_nil, or_false] at hx
        rcases hx with hx | hx | hx | hx <;> subst hx <;> simp
      have hA61 : a ≠ 61 := hmem a (by simp)
      have hB61 : b ≠ 61 := hmem b (by simp)
      have hC61 : c ≠ 61 := hmem c (by simp)
      have hD61 : d ≠ 61 := hmem d (by simp)
      have hcq : (a :: b :: c :: d :: r0 :: rtail).count 61 = (r0 :: rtail).count 61 := by
        simp [List.count_cons, hA61, hB61, hC61, hD61]
      have hshr : b64Shape (r0 :: rtail) = true := by
        simp only [b64Shape, Bool.and_eq_true, decide_eq_true_eq]
        refine ⟨⟨⟨?_, ?_⟩, ?_⟩, ?_⟩
        · exact List.all_eq_true.mpr fun x hx => hacc x
            (List.mem_cons_of_mem _ (List.mem_cons_of_mem _
              (List.mem_cons_of_mem _ (List.mem_cons_of_mem _ hx))))
        · simp only [List.length_cons] at hlen ⊢
          omega
        · rw [← hcq]
          exact hcnt
        · have hk2 : (r0 :: rtail).length - (r0 :: rtail).count 61 = k := by
            rw [← hcq]
            simp only [List.length_cons] at hk ⊢
            omega
          rw [hk2, ← hcq]
          have hd4 : (a :: b :: c :: d :: r0 :: rtail).drop (k + 4) = (r0 :: rtail).drop k :=
            drop_four a b c d (r0 :: rtail) k
          rw [← hd4, ← hk]
          exact hdrop
      have hg := shape_to_grammar (r0 :: rtail) hshr
      simp [grammarB64, acc_imp a (hacc a (by simp)) hA61,
        acc_imp b (hacc b (by simp)) hB61, acc_imp c (hacc c (by simp)) hC61,
        acc_imp d (hacc d (by simp)) hD61, hg]

theorem grammar_shape (s : List Nat) : grammarB64 s = b64Shape s := by
  rcases hg : grammarB64 s with _ | _ <;> rcases hs : b64Shape s with _ | _
  · rfl
  · exact absurd (shape_to_grammar s hs) (by simp [hg])
  · exact absurd (grammar_to_shape s hg) (by simp [hs])
  · rfl

/-! ### Character-set and trimming lemmas -/

theorem decode_isSome_shape (s : List Nat) :
    (fromI2PBase64 s).isSome = b64Shape (stripNL s) := by
  rw [fromI2PBase64, decodeLoop_strip s.length s le_rfl,
    decodeLoop_grammar (stripNL s).length (stripNL s) (stripNL_noNL s) le_rfl,
    grammar_shape]

theorem isI2PChar_high (r : Nat) (h : 128 ≤ r) : isI2PChar r = false := by
  simp only [isI2PChar, decide_eq_false_iff_not]
  omega

theorem decodeRune_ascii (c : Nat) (rest : List Nat) (h : c < 128) :
    decodeRuneSize (c :: rest) = (c, 1) := by
  simp [decodeRuneSize, h]

theorem decodeRune_high (b0 : Nat) (rest : List Nat) (h : 128 ≤ b0) :
    128 ≤ (decodeRuneSize (b0 :: rest)).1 := by
  rcases rest with _ | ⟨b1, _ | ⟨b2, _ | ⟨b3, r3⟩⟩⟩ <;>
    simp only [decodeRuneSize, runeError] <;> split_ifs <;> dsimp only <;> omega

theorem decodeRune_pos (c : Nat) (rest : List Nat) :
    1 ≤ (decodeRuneSize (c :: rest)).2 := by
  rcases rest with _ | ⟨b1, _ | ⟨b2, _ | ⟨b3, r3⟩⟩⟩ <;>
    simp only [decodeRuneSize, runeError] <;> split_ifs <;> dsimp only <;> omega

theorem validRunes_eq_all : ∀ (fuel : Nat) (s : List Nat), s.length ≤ fuel →
    validRunes fuel s = s.all isI2PChar := by
  intro fuel
  induction fuel with
  | zero =>
    intro s h
    rcases s with _ | ⟨c, rest⟩
    · rfl
    · simp at h
  | succ f ih =>
    intro s h
    rcases s with _ | ⟨c, rest⟩
    · rfl
    · simp only [List.length_cons] at h
      by_cases hc : c < 128
      · simp only [validRunes, decodeRune_ascii c rest hc, List.all_cons,
          List.drop_succ_cons, List.drop_zero]
        rw [ih rest (by omega)]
      · have hr := decodeRune_high c rest (by omega)
        simp only [validRunes, List.all_cons, isI2PChar_high _ hr,
          isI2PChar_high c (by omega), Bool.false_and]

theorem decodeLastRune_ascii (s : List Nat) (t : Nat) (hl : s.getLast? = some t)
    (ht : t < 128) : decodeLastRune s = (t, 1) := by
  simp [decodeLastRune, hl, ht]

theorem trimLeftSpace_id : ∀ (fuel c : Nat) (rest : List Nat), c < 128 →
    isSpaceRune c = false → trimLeftSpace fuel (c :: rest) = c :: rest := by
  intro fuel c rest hc hs
  cases fuel with
  | zero => rfl
  | succ f => simp [trimLeftSpace, decodeRune_ascii c rest hc, hs]

theorem trimRightSpace_id : ∀ (fuel : Nat) (s : List Nat) (t : Nat),
    s.getLast? = some t → t < 128 → isSpaceRune t = false →
    trimRightSpace fuel s = s := by
  intro fuel s t hl ht hs
  cases fuel with
  | zero => cases s <;> rfl
  | succ f =>
    cases s with
    | nil => rfl
    | cons c rest => simp [trimRightSpace, decodeLastRune_ascii _ t hl ht, hs]

theorem trimSpace_id (c : Nat) (rest : List Nat) (t : Nat) (hc : c < 128)
    (hcs : isSpaceRune c = false) (hl : (c :: rest).getLast? = some t)
    (ht : t < 128) (hts : isSpaceRune t = false) :
    trimSpace (c :: rest) = c :: rest := by
  rw [trimSpace, trimLeftSpace_id _ c rest hc hcs, trimRightSpace_id _ _ t hl ht hts]

/-! ### Newline splitting -/

theorem splitNL_ne_nil : ∀ s : List Nat, splitNL s ≠ []
  | [] => by simp [splitNL]
  | c :: rest => by
    simp only [splitNL]
    rcases splitNL rest with _ | ⟨l, ls⟩
    · simp
    · dsimp only
      split <;> simp

theorem splitNL_head_le : ∀ s : List Nat, ((splitNL s).getD 0 []).length ≤ s.length
  | [] => by simp [splitNL]
  | c :: rest => by
    have ih := splitNL_head_le rest
    simp only [splitNL]
    rcases h : splitNL rest with _ | ⟨l, ls⟩
    · exact absurd h (splitNL_ne_nil rest)
    · rw [h] at ih
      dsimp only
      split
      · simp
      · simp only [List.getD_cons_zero, List.length_cons] at ih ⊢
        omega

theorem splitNL_no_nl : ∀ s : List Nat, (∀ x ∈ s, x ≠ 10) → splitNL s = [s]
  | [] => fun _ => rfl
  | c :: rest => fun h => by
    have hc : c ≠ 10 := h c (by simp)
    have ih := splitNL_no_nl rest fun x hx => h x (by simp [hx])
    simp [splitNL, ih, hc]

theorem splitNL_append (l1 l2 : List Nat) (h : ∀ x ∈ l1, x ≠ 10) :
    splitNL (l1 ++ 10 :: l2) = l1 :: splitNL l2 := by
  induction l1 with
  | nil =>
    simp only [List.nil_append, splitNL]
    rcases hs : splitNL l2 with _ | ⟨l, ls⟩
    · exact absurd hs (splitNL_ne_nil l2)
    · simp
  | cons c rest ih =>
    have hc : c ≠ 10 := h c (by simp)
    have ihr := ih fun x hx => h x (by simp [hx])
    simp only [List.cons_append, splitNL, List.append_eq]
    rw [ihr]
    simp [hc]

/-! ### The re-encoded output is in the canonical format -/

theorem decode_take516 (data : List Nat) (hb : ∀ x ∈ data, x < 256)
    (h516 : 516 ≤ (toI2PBase64 data).length) :
    (fromI2PBase64 ((toI2PBase64 data).take 516)).isSome = true := by
  have hlen := toI2PBase64_length data
  by_cases hn : data.length ≤ 387
  · have hui : (toI2PBase64 data).length ≤ 516 := by omega
    rw [List.take_of_length_le hui, fromI2PBase64_toI2PBase64 data hb]
    rfl
  · push_neg at hn
    have htl : (data.take 387).length = 387 := by
      rw [List.length_take]
      omega
    have henc : toI2PBase64 data =
        toI2PBase64 (data.take 387) ++ toI2PBase64 (data.drop 387) := by
      conv_lhs => rw [← List.take_append_drop 387 data]
      exact toI2PBase64_append3 _ (by rw [htl]) _
    have hel : (toI2PBase64 (data.take 387)).length = 516 := by
      rw [toI2PBase64_length, htl]
    rw [henc, List.take_left' hel,
      fromI2PBase64_toI2PBase64 _ (fun x hx => hb x (List.take_subset _ _ hx))]
    rfl

theorem isFormat_of_good (l : List Nat) (hne : l ≠ [])
    (hgood : ∀ c ∈ l, isI2PChar c = true)
    (hdec : (fromI2PBase64 l).isSome = true) : isI2PBase64Format l = true := by
  rcases l with _ | ⟨c0, rest⟩
  · exact absurd rfl hne
  · have hc0 := isI2PChar_facts c0 (hgood c0 (by simp))
    have hlast := List.getLast?_eq_getLast (c0 :: rest) (by simp)
    have htmem : (c0 :: rest).getLast (by simp) ∈ c0 :: rest :=
      List.mem_of_getLast?_eq_some hlast
    have ht := isI2PChar_facts _ (hgood _ htmem)
    have htrim := trimSpace_id c0 rest _ hc0.1 hc0.2.2.2 hlast ht.1 ht.2.2.2
    simp only [isI2PBase64Format, htrim]
    rw [validRunes_eq_all _ _ le_rfl]
    simp only [List.isEmpty_cons, Bool.not_false, Bool.true_and, hdec, Bool.and_true]
    exact List.all_eq_true.mpr hgood

theorem output_correct (data : List Nat) (hb : ∀ x ∈ data, x < 256)
    (h516 : 516 ≤ (toI2PBase64 data).length) :
    IsCorrectFormat ((toI2PBase64 data).take 516 ++ 10 :: toI2PBase64 data) = true := by
  have hgood := toI2PBase64_mem data
  have hgoodt : ∀ c ∈ (toI2PBase64 data).take 516, isI2PChar c = true :=
    fun c hc => hgood c (List.take_subset _ _ hc)
  have hne : toI2PBase64 data ≠ [] := by
    intro h0
    rw [h0] at h516
    simp at h516
  have htake_len : ((toI2PBase64 data).take 516).length = 516 := by
    rw [List.length_take]
    omega
  have htake_ne : (toI2PBase64 data).take 516 ≠ [] := by
    intro h0
    rw [h0] at htake_len
    simp at htake_len
  obtain ⟨d0, dtail, hdcons⟩ := List.exists_cons_of_ne_nil htake_ne
  have hd0 : isI2PChar d0 = true := hgoodt d0 (by rw [hdcons]; simp)
  have hd0f := isI2PChar_facts d0 hd0
  have hlastck := List.getLast?_eq_getLast (toI2PBase64 data) hne
  have htmem := List.mem_of_getLast?_eq_some hlastck
  have htf := isI2PChar_facts _ (hgood _ htmem)
  have hout : (toI2PBase64 data).take 516 ++ 10 :: toI2PBase64 data =
      d0 :: (dtail ++ 10 :: toI2PBase64 data) := by
    rw [hdcons]
    rfl
  obtain ⟨c0, ctail, hccons⟩ := List.exists_cons_of_ne_nil hne
  have hlastout : (d0 :: (dtail ++ 10 :: toI2PBase64 data)).getLast? =
      (toI2PBase64 data).getLast? := by
    rw [← hout, List.getLast?_append_of_ne_nil _ (by simp), hccons,
      List.getLast?_cons_cons]
  have htrim : trimSpace ((toI2PBase64 data).take 516 ++ 10 :: toI2PBase64 data) =
      (toI2PBase64 data).take 516 ++ 10 :: toI2PBase64 data := by
    rw [hout]
    exact trimSpace_id d0 _ _ hd0f.1 hd0f.2.2.2 (hlastout.trans hlastck) htf.1 htf.2.2.2
  have hsplit : splitNL ((toI2PBase64 data).take 516 ++ 10 :: toI2PBase64 data) =
      [(toI2PBase64 data).take 516, toI2PBase64 data] := by
    rw [splitNL_append _ _ (fun x hx => (isI2PChar_facts x (hgoodt x hx)).2.1),
      splitNL_no_nl _ (fun x hx => (isI2PChar_facts x (hgood x hx)).2.1)]
  simp only [IsCorrectFormat, htrim, hsplit, List.length_cons, List.length_nil,
    List.getD_cons_zero, List.getD_cons_succ]
  rw [isFormat_of_good _ htake_ne hgoodt (decode_take516 data hb h516),
    isFormat_of_good _ hne hgood (by rw [fromI2PBase64_toI2PBase64 data hb]; rfl)]
  rfl

/-! ### Claims -/

/-- C1: for every byte sequence `b`, decoding the result of encoding `b`
under the custom 64-symbol alphabet succeeds and returns exactly `b`,
including for the empty sequence: `fromI2PBase64 (toI2PBase64 b) = some b`. -/
theorem C1_roundtrip (b : List Nat) (hb : ∀ x ∈ b, x < 256) :
    fromI2PBase64 (toI2PBase64 b) = some b :=
  fromI2PBase64_toI2PBase64 b hb

/-- Witness for C1 at the concrete byte sequence [3, 1, 4, 255]. -/
theorem C1_roundtrip_witness :
    (∀ x ∈ ([3, 1, 4, 255] : List Nat), x < 256) ∧
      fromI2PBase64 (toI2PBase64 [3, 1, 4, 255]) = some [3, 1, 4, 255] :=
  ⟨by decide, C1_roundtrip [3, 1, 4, 255] (by decide)⟩

/-- Counterexample to C2 as stated: the input consisting of the single LF
byte contains a symbol outside the custom alphabet plus `=`, so the claim
predicts a decode error, yet `fromI2PBase64` succeeds on it because Go's
Base64 decoder skips CR and LF bytes. -/
theorem C2_newline_cex :
    fromI2PBase64 [10] = some [] ∧ (isAlphaSym 10 || decide (10 = 61)) = false := by
  decide

/-- C2 (amended): after discarding the CR and LF bytes that the decoder
skips, `fromI2PBase64` fails exactly when the remaining text contains a
symbol outside the alphabet plus `=`, or has a length that is not a multiple
of four, or has `=` signs anywhere other than a run of at most two at the
very end; and the zero-length input succeeds with zero-length output. -/
theorem C2_decode_characterization (s : List Nat) :
    (fromI2PBase64 s).isSome = b64Shape (stripNL s) ∧
      fromI2PBase64 [] = some [] :=
  ⟨decode_isSome_shape s, rfl⟩

theorem segment_eq (seg : List Nat) : isI2PBase64Format seg = specSegmentOK seg := by
  simp only [isI2PBase64Format, specSegmentOK]
  rw [validRunes_eq_all _ _ le_rfl]
  have hp : isI2PChar = (fun c => isAlphaSym c || decide (c = 61)) := by
    funext c
    simp [isI2PChar, isAlphaSym, Bool.decide_or, Bool.or_assoc]
  rw [hp]

/-- C3: `IsCorrectFormat s` holds exactly when, after trimming leading and
trailing whitespace from `s`, splitting on newline yields exactly two
segments, and each segment after its own trimming is non-empty, consists only
of characters `A-Z a-z 0-9 - ~ =`, and decodes under the custom alphabet;
any other segment count or failing segment yields false. -/
theorem C3_isCorrectFormat_spec (s : List Nat) : IsCorrectFormat s = specTwoLine s := by
  simp only [IsCorrectFormat, specTwoLine]
  rcases h : splitNL (trimSpace s) with _ | ⟨l1, _ | ⟨l2, _ | ⟨l3, ls⟩⟩⟩
  · exact absurd h (splitNL_ne_nil _)
  · simp
  · simp only [List.length_cons, List.length_nil, List.getD_cons_zero,
      List.getD_cons_succ, segment_eq]
    simp
  · simp

/-- C4: input in the correct two-line format passes through the conversion
unchanged, byte for byte, whatever the length of its first line. -/
theorem C4_passthrough (data : List Nat) (h : IsCorrectFormat data = true) :
    ConvertKeyFile data = some data := by
  simp [ConvertKeyFile, h]

/-- Witness for C4 at a canonical input whose line 1 has length 4, not 516. -/
theorem C4_passthrough_witness :
    IsCorrectFormat [81, 85, 74, 68, 10, 81, 85, 74, 68] = true ∧
      ConvertKeyFile [81, 85, 74, 68, 10, 81, 85, 74, 68] =
        some [81, 85, 74, 68, 10, 81, 85, 74, 68] :=
  ⟨by decide, C4_passthrough [81, 85, 74, 68, 10, 81, 85, 74, 68] (by decide)⟩

/-- C5: for input that is not canonical but whose whole content passes the
classifier, if the first newline-separated line has length at least 516 the
conversion outputs that line's first 516 characters, a newline, and the
whole first line. -/
theorem C5_long_first_line (data : List Nat)
    (h1 : IsCorrectFormat data = false) (h2 : isI2PBase64Format data = true)
    (h3 : 516 ≤ ((splitNL data).getD 0 []).length) :
    ConvertKeyFile data =
      some (((splitNL data).getD 0 []).take 516 ++ 10 :: (splitNL data).getD 0 []) := by
  simp only [ConvertKeyFile, h1, h2, Bool.false_eq_true, if_false, if_true]
  rw [if_pos h3]

/-- Witness for C5 at a single 700-character encoded line with no newline:
the output is the first 516 characters, a newline, and the original line. -/
theorem C5_long_first_line_witness :
    IsCorrectFormat (List.replicate 700 65) = false ∧
      isI2PBase64Format (List.replicate 700 65) = true ∧
      ConvertKeyFile (List.replicate 700 65) =
        some (List.replicate 516 65 ++ 10 :: List.replicate 700 65) := by
  refine ⟨by decide, by decide, ?_⟩
  rw [C5_long_first_line (List.replicate 700 65) (by decide) (by decide) (by decide)]
  rfl

/-- C6: for input that is not canonical, is classified as encoded text as a
whole, but whose first line is shorter than 516 characters, the conversion
re-encodes the original raw input bytes (not the recognized text) and applies
the 516-character split to that re-encoding, failing if it is too short. -/
theorem C6_short_line_fallback (data : List Nat)
    (h1 : IsCorrectFormat data = false) (h2 : isI2PBase64Format data = true)
    (h3 : ((splitNL data).getD 0 []).length < 516) :
    ConvertKeyFile data =
      (if 516 ≤ (toI2PBase64 data).length then
        some ((toI2PBase64 data).take 516 ++ 10 :: toI2PBase64 data)
      else none) := by
  have h4 : ¬ 516 ≤ ((splitNL data).getD 0 []).length := by omega
  simp only [ConvertKeyFile, h1, h2, Bool.false_eq_true, if_false, if_true]
  rw [if_neg h4]

/-- Witness for C6 at the five bytes of the text "QUJD\n": the classifier
accepts the whole text, the first line is short, and re-encoding the five raw
bytes yields only 8 characters, so the conversion fails. -/
theorem C6_short_line_fallback_witness :
    IsCorrectFormat [81, 85, 74, 68, 10] = false ∧
      isI2PBase64Format [81, 85, 74, 68, 10] = true ∧
      ConvertKeyFile [81, 85, 74, 68, 10] = none := by
  refine ⟨by decide, by decide, ?_⟩
  rw [C6_short_line_fallback [81, 85, 74, 68, 10] (by decide) (by decide) (by decide)]
  rfl

/-- C7: for input that is not canonical and whose whole-input encoding is
shorter than 516 characters, the conversion fails with the
insufficient-key-length error and produces no output text. -/
theorem C7_short_encoding_fails (data : List Nat)
    (h1 : IsCorrectFormat data = false)
    (h2 : (toI2PBase64 data).length < 516) :
    ConvertKeyFile data = none := by
  have ha := splitNL_head_le data
  have hb := toI2PBase64_length data
  have h4 : ¬ 516 ≤ ((splitNL data).getD 0 []).length := by omega
  have h5 : ¬ 516 ≤ (toI2PBase64 data).length := by omega
  by_cases h3 : isI2PBase64Format data = true
  · simp only [ConvertKeyFile, h1, h3, Bool.false_eq_true, if_false, if_true]
    rw [if_neg h4, if_neg h5]
  · simp only [Bool.not_eq_true] at h3
    simp only [ConvertKeyFile, h1, h3, Bool.false_eq_true, if_false]
    rw [if_neg h5]

/-- Witness for C7 at the three raw bytes [1, 2, 3]. -/
theorem C7_short_encoding_fails_witness :
    IsCorrectFormat [1, 2, 3] = false ∧ (toI2PBase64 [1, 2, 3]).length < 516 ∧
      ConvertKeyFile [1, 2, 3] = none :=
  ⟨by decide, by decide, C7_short_encoding_fails [1, 2, 3] (by decide) (by decide)⟩

/-- Counterexample to C8 as stated: a canonical input whose first line (520
characters) is longer than its second line (4 characters) passes through
unchanged, so the transformation emits a two-line output violating
len(line1) ≤ len(line2). -/
theorem C8_passthrough_cex :
    ConvertKeyFile (List.replicate 520 65 ++ 10 :: [81, 85, 74, 68]) =
        some (List.replicate 520 65 ++ 10 :: [81, 85, 74, 68]) ∧
      splitNL (List.replicate 520 65 ++ 10 :: [81, 85, 74, 68]) =
        [List.replicate 520 65, [81, 85, 74, 68]] ∧
      ¬ (List.replicate 520 65).length ≤ ([81, 85, 74, 68] : List Nat).length := by
  refine ⟨by decide, by decide, by decide⟩

/-- C8 (amended): every two-line output the transformation derives (that is,
whenever the input did not pass the validator unchanged) satisfies
len(line1) = 516 and len(line1) ≤ len(line2); a pass-through output keeps
whatever line lengths the input already had. -/
theorem C8_derived_lengths (data out : List Nat)
    (h1 : IsCorrectFormat data = false) (h2 : ConvertKeyFile data = some out) :
    ∃ l1 l2 : List Nat, out = l1 ++ 10 :: l2 ∧ l1.length = 516 ∧ l1.length ≤ l2.length := by
  simp only [ConvertKeyFile, h1, Bool.false_eq_true, if_false] at h2
  split at h2
  next h3 =>
    split at h2
    next h4 =>
      obtain rfl : out = _ := (Option.some.inj h2).symm
      exact ⟨_, _, rfl, by rw [List.length_take]; omega, by rw [List.length_take]; omega⟩
    next h4 =>
      split at h2
      next h5 =>
        obtain rfl : out = _ := (Option.some.inj h2).symm
        exact ⟨_, _, rfl, by rw [List.length_take]; omega, by rw [List.length_take]; omega⟩
      next h5 => exact absurd h2 (by simp)
  next h3 =>
    split at h2
    next h5 =>
      obtain rfl : out = _ := (Option.some.inj h2).symm
      exact ⟨_, _, rfl, by rw [List.length_take]; omega, by rw [List.length_take]; omega⟩
    next h5 => exact absurd h2 (by simp)

/-- Witness for the amended C8 at a single 516-character encoded line. -/
theorem C8_derived_lengths_witness :
    IsCorrectFormat (List.replicate 516 66) = false ∧
      ∃ l1 l2 : List Nat,
        List.replicate 516 66 ++ 10 :: List.replicate 516 66 = l1 ++ 10 :: l2 ∧
          l1.length = 516 ∧ l1.length ≤ l2.length :=
  ⟨by decide, C8_derived_lengths (List.replicate 516 66)
    (List.replicate 516 66 ++ 10 :: List.replicate 516 66) (by decide) (by decide)⟩

/-- C9: for every byte sequence that is neither accepted by the two-line
validator nor classified as encoded text, the codec encoding of its n bytes
has exactly 4*ceil(n/3) characters and the conversion succeeds exactly when
n ≥ 385 (the 387-byte scenario of the spec is 2 bytes above the minimum). -/
theorem C9_threshold (data : List Nat)
    (h1 : IsCorrectFormat data = false) (h2 : isI2PBase64Format data = false) :
    (toI2PBase64 data).length = 4 * ((data.length + 2) / 3) ∧
      ((ConvertKeyFile data).isSome = true ↔ 385 ≤ data.length) := by
  refine ⟨toI2PBase64_length data, ?_⟩
  have hl := toI2PBase64_length data
  by_cases h5 : 516 ≤ (toI2PBase64 data).length
  · simp only [ConvertKeyFile, h1, h2, Bool.false_eq_true, if_false]
    rw [if_pos h5]
    simp only [Option.isSome_some, true_iff]
    omega
  · simp only [ConvertKeyFile, h1, h2, Bool.false_eq_true, if_false]
    rw [if_neg h5]
    simp only [Option.isSome_none, Bool.false_eq_true, false_iff]
    omega

/-- Witness for C9 at 385 zero bytes, which encode to exactly 516
characters. -/
theorem C9_threshold_witness :
    IsCorrectFormat (List.replicate 385 0) = false ∧
      isI2PBase64Format (List.replicate 385 0) = false ∧
      (toI2PBase64 (List.replicate 385 0)).length =
        4 * (((List.replicate 385 0).length + 2) / 3) ∧
      ((ConvertKeyFile (List.replicate 385 0)).isSome = true ↔
        385 ≤ (List.replicate 385 0).length) := by
  have h := C9_threshold (List.replicate 385 0) (by decide) (by decide)
  exact ⟨by decide, by decide, h.1, h.2⟩

/-- C10: every successful output produced through the binary re-encoding path
satisfies IsCorrectFormat: the first 516 characters of the encoding decode on
their own, because 516 is a multiple of four and `=` padding only occurs in
the final four-symbol group of the encoding. -/
theorem C10_output_correct (data out : List Nat) (hb : ∀ x ∈ data, x < 256)
    (h1 : IsCorrectFormat data = false)
    (h2 : isI2PBase64Format data = true → ((splitNL data).getD 0 []).length < 516)
    (h3 : ConvertKeyFile data = some out) :
    IsCorrectFormat out = true := by
  simp only [ConvertKeyFile, h1, Bool.false_eq_true, if_false] at h3
  split at h3
  next hf =>
    have hlt := h2 hf
    rw [if_neg (by omega : ¬ 516 ≤ ((splitNL data).getD 0 []).length)] at h3
    split at h3
    next h5 =>
      obtain rfl : out = _ := (Option.some.inj h3).symm
      exact output_correct data hb h5
    next h5 => exact absurd h3 (by simp)
  next hf =>
    split at h3
    next h5 =>
      obtain rfl : out = _ := (Option.some.inj h3).symm
      exact output_correct data hb h5
    next h5 => exact absurd h3 (by simp)

/-- Witness for C10 at 400 raw bytes of value 65, which take the re-encoding
path (the text is classifier-positive but its only line is shorter than 516
characters). -/
theorem C10_output_correct_witness :
    IsCorrectFormat ((ConvertKeyFile (List.replicate 400 65)).getD []) = true :=
  C10_output_correct (List.replicate 400 65)
    ((ConvertKeyFile (List.replicate 400 65)).getD [])
    (by decide) (by decide) (fun h => by decide) (by decide)
